import Mathlib

/-!
Shallow embedding of the expert-system repository core: the formula
lexer/parser/evaluator, the sequential and parallel permutation engines,
and the input-loading glue of `main.rs`.  Definitions follow the Rust
source under `src/` where it exists; parts of the repository whose code
is not included (the parser bodies are `todo!()` stubs and
`SequentialPermutationIter` appears only through its caller) are modelled
from the specification and marked as such in their doc comments.
-/

namespace ExpertSystem

/-- Modelled from the spec: the token data model of section 3.  The real
`Token` enum of `parser.rs` has variants Implicator, Operator, Parenthesis
and Identifier; the implicator distinguishes the biconditional by a flag. -/
inductive Token where
  | implicator (isIff : Bool)
  | operator (c : Char)
  | parenthesis (c : Char)
  | ident (c : Char)
deriving DecidableEq, Repr

/-- Modelled from the spec: the lexer of section 4.1.  `Parser::tokenize`
in `parser.rs` is a `todo!()` stub, so the tokenizer is built from the
spec: whitespace is skipped, the biconditional is matched greedily before
the implication, operators are single characters, identifiers are single
uppercase letters, and anything else is a lexing error. -/
def tokenize : List Char → Except String (List Token)
  | [] => Except.ok []
  | '<' :: '=' :: '>' :: rest =>
    (tokenize rest).map (fun ts => Token.implicator true :: ts)
  | '=' :: '>' :: rest =>
    (tokenize rest).map (fun ts => Token.implicator false :: ts)
  | c :: rest =>
    if c = ' ' ∨ c = '\t' then tokenize rest
    else if c = '+' ∨ c = '|' ∨ c = '^' ∨ c = '!' then
      (tokenize rest).map (fun ts => Token.operator c :: ts)
    else if c = '(' ∨ c = ')' then
      (tokenize rest).map (fun ts => Token.parenthesis c :: ts)
    else if 'A' ≤ c ∧ c ≤ 'Z' then
      (tokenize rest).map (fun ts => Token.ident c :: ts)
    else Except.error "LexError: unrecognized character"

/-- Modelled from the spec: the AST node of section 3, as a typed tree
(identifier leaves, a unary NOT child, binary operator children). -/
inductive Node where
  | ident (c : Char)
  | not (child : Node)
  | and (l r : Node)
  | or (l r : Node)
  | xor (l r : Node)
  | imp (l r : Node)
  | iff (l r : Node)
deriving DecidableEq, Repr

mutual

/-- Modelled from the spec: precedence level IFF (lowest binding,
right-associative), section 4.2.  The corresponding `Parser::parse` /
`get_implicator` bodies in `parser.rs` are `todo!()` stubs. -/
def getIff : Nat → List Token → Except String (Node × List Token)
  | 0, _ => Except.error "out of fuel"
  | fuel + 1, ts => do
    let (left, ts1) ← getImp fuel ts
    match ts1 with
    | Token.implicator true :: rest => do
      let (right, ts2) ← getIff fuel rest
      Except.ok (Node.iff left right, ts2)
    | _ => Except.ok (left, ts1)

/-- Modelled from the spec: precedence level IMPLIES (right-associative). -/
def getImp : Nat → List Token → Except String (Node × List Token)
  | 0, _ => Except.error "out of fuel"
  | fuel + 1, ts => do
    let (left, ts1) ← getOr fuel ts
    match ts1 with
    | Token.implicator false :: rest => do
      let (right, ts2) ← getImp fuel rest
      Except.ok (Node.imp left right, ts2)
    | _ => Except.ok (left, ts1)

/-- Modelled from the spec: precedence level OR (left-associative chain). -/
def getOr : Nat → List Token → Except String (Node × List Token)
  | 0, _ => Except.error "out of fuel"
  | fuel + 1, ts => do
    let (left, ts1) ← getXor fuel ts
    getOrRest fuel left ts1

/-- Modelled from the spec: left-associative folding of an OR chain. -/
def getOrRest : Nat → Node → List Token → Except String (Node × List Token)
  | 0, _, _ => Except.error "out of fuel"
  | fuel + 1, left, ts =>
    match ts with
    | Token.operator '|' :: rest => do
      let (right, ts2) ← getXor fuel rest
      getOrRest fuel (Node.or left right) ts2
    | _ => Except.ok (left, ts)

/-- Modelled from the spec: precedence level XOR (left-associative chain). -/
def getXor : Nat → List Token → Except String (Node × List Token)
  | 0, _ => Except.error "out of fuel"
  | fuel + 1, ts => do
    let (left, ts1) ← getAnd fuel ts
    getXorRest fuel left ts1

/-- Modelled from the spec: left-associative folding of a XOR chain. -/
def getXorRest : Nat → Node → List Token → Except String (Node × List Token)
  | 0, _, _ => Except.error "out of fuel"
  | fuel + 1, left, ts =>
    match ts with
    | Token.operator '^' :: rest => do
      let (right, ts2) ← getAnd fuel rest
      getXorRest fuel (Node.xor left right) ts2
    | _ => Except.ok (left, ts)

/-- Modelled from the spec: precedence level AND (left-associative chain). -/
def getAnd : Nat → List Token → Except String (Node × List Token)
  | 0, _ => Except.error "out of fuel"
  | fuel + 1, ts => do
    let (left, ts1) ← getNot fuel ts
    getAndRest fuel left ts1

/-- Modelled from the spec: left-associative folding of an AND chain. -/
def getAndRest : Nat → Node → List Token → Except String (Node × List Token)
  | 0, _, _ => Except.error "out of fuel"
  | fuel + 1, left, ts =>
    match ts with
    | Token.operator '+' :: rest => do
      let (right, ts2) ← getNot fuel rest
      getAndRest fuel (Node.and left right) ts2
    | _ => Except.ok (left, ts)

/-- Modelled from the spec: unary NOT, binding tighter than every binary
operator and right-recursive (permitting repeated negation). -/
def getNot : Nat → List Token → Except String (Node × List Token)
  | 0, _ => Except.error "out of fuel"
  | fuel + 1, ts =>
    match ts with
    | Token.operator '!' :: rest => do
      let (child, ts2) ← getNot fuel rest
      Except.ok (Node.not child, ts2)
    | _ => getAtom fuel ts

/-- Modelled from the spec: the highest level, a parenthesized
sub-expression (requiring a matching closing parenthesis) or an
identifier leaf. -/
def getAtom : Nat → List Token → Except String (Node × List Token)
  | 0, _ => Except.error "out of fuel"
  | fuel + 1, ts =>
    match ts with
    | Token.ident c :: rest => Except.ok (Node.ident c, rest)
    | Token.parenthesis '(' :: rest => do
      let (inner, ts2) ← getIff fuel rest
      match ts2 with
      | Token.parenthesis ')' :: rest2 => Except.ok (inner, rest2)
      | _ => Except.error "SyntaxError: expected closing parenthesis"
    | [] => Except.error "UnexpectedEndOfInput"
    | _ => Except.error "SyntaxError: unexpected token"

end

/-- Modelled from the spec: the full parse of a formula string, requiring
that all tokens are consumed (an identifier followed by a stray token is
a syntax error). -/
def parse (s : List Char) : Except String Node := do
  let toks ← tokenize s
  let (node, rest) ← getIff (8 * toks.length + 8) toks
  match rest with
  | [] => Except.ok node
  | _ => Except.error "SyntaxError: unexpected trailing token"

/-- Modelled from the spec: the evaluator of section 4.3. -/
def evalNode : Node → (Char → Bool) → Bool
  | Node.ident c, a => a c
  | Node.not ch, a => !(evalNode ch a)
  | Node.and l r, a => evalNode l a && evalNode r a
  | Node.or l r, a => evalNode l a || evalNode r a
  | Node.xor l r, a => Bool.xor (evalNode l a) (evalNode r a)
  | Node.imp l r, a => !(evalNode l a) || evalNode r a
  | Node.iff l r, a => evalNode l a == evalNode r a

/-- Modelled from the spec: the assignment data model of section 3 — bit
`i` of the assignment integer is the truth value of the `i`-th variable
of the ordered variable set. -/
def assignmentOf (i : Nat) (vars : List Char) : Char → Bool :=
  fun c => i.testBit (vars.indexOf c)

/-- Modelled from the spec: row formatting (section 3 Row and the
concrete scenario of section 8) — each variable's 0/1 value in
declaration order, followed by the formula's evaluated result. -/
def rowOf (formula vars : List Char) (i : Nat) : String :=
  String.mk ((List.range vars.length).map (fun k => if i.testBit k then '1' else '0'))
    ++ " " ++
    (match parse formula with
     | Except.ok node => if evalNode node (assignmentOf i vars) then "1" else "0"
     | Except.error _ => "?")

/-- Modelled from the spec: the sequential permutation iterator of
section 4.4.  Its Rust source is not under `src/`; only its constructor
call `SequentialPermutationIter::new(formula, variables, pos_map, start,
end)` appears in `parallel.rs`.  The `end` bound is called `stop` here
because `end` is reserved in Lean; `cursor` is the iterator's position,
starting at `start`. -/
structure SequentialPermutationIter where
  formula : List Char
  vars : List Char
  pos_map : List (Char × List Nat)
  start : Nat
  stop : Nat
  cursor : Nat
deriving DecidableEq, Repr

/-- Modelled from the spec: constructor mirroring the argument list of
`SequentialPermutationIter::new` as called from `parallel.rs`. -/
def SequentialPermutationIter.new (formula vars : List Char)
    (pos_map : List (Char × List Nat)) (start stop : Nat) :
    SequentialPermutationIter :=
  { formula := formula, vars := vars, pos_map := pos_map
    start := start, stop := stop, cursor := start }

/-- Modelled from the spec: one iterator step — while the cursor is below
the `end` bound, yield the row for the current assignment integer and
advance; afterwards signal end-of-sequence, never wrapping around. -/
def SequentialPermutationIter.next (it : SequentialPermutationIter) :
    Option (String × SequentialPermutationIter) :=
  if it.cursor < it.stop then
    some (rowOf it.formula it.vars it.cursor, { it with cursor := it.cursor + 1 })
  else
    none

/-- Runs the sequential iterator with explicit fuel, collecting the rows
it yields and the final iterator state. -/
def SequentialPermutationIter.runFuel :
    Nat → SequentialPermutationIter → List String × SequentialPermutationIter
  | 0, it => ([], it)
  | fuel + 1, it =>
    match it.next with
    | none => ([], it)
    | some (r, it2) =>
      let (rs, itf) := SequentialPermutationIter.runFuel fuel it2
      (r :: rs, itf)

/-- Runs the sequential iterator to exhaustion. -/
def SequentialPermutationIter.run (it : SequentialPermutationIter) :
    List String × SequentialPermutationIter :=
  SequentialPermutationIter.runFuel (it.stop - it.cursor) it

/-- The full list of rows the sequential engine yields over `[start, stop)`. -/
def seqRows (formula vars : List Char) (pos_map : List (Char × List Nat))
    (start stop : Nat) : List String :=
  ((SequentialPermutationIter.new formula vars pos_map start stop).run).1

/-- The chunk ranges computed by `ParallelPermutationIter::new` in
`parallel.rs`: one chunk `[0, total_end)` for a single thread, otherwise
`start = step * i`, `end = start + step` with `step = total_end /
thread_count`, the last chunk's `end` overridden to `total_end`. -/
def chunkRanges (totalEnd tc : Nat) : List (Nat × Nat) :=
  match tc with
  | 0 => []
  | 1 => [(0, totalEnd)]
  | k + 2 =>
    let step := totalEnd / (k + 2)
    (List.range (k + 2)).map
      (fun i => (step * i, if i = k + 1 then totalEnd else step * i + step))

/-- The parallel engine state: the `variables` and `thread_count` fields
of the Rust struct, with the spawned worker threads embedded as the list
of sequential iterators they run (each worker sends exactly the rows of
its iterator into the shared channel). -/
structure ParallelPermutationIter where
  vars : List Char
  thread_count : Nat
  workers : List SequentialPermutationIter

/-- Embeds `ParallelPermutationIter::new` from `parallel.rs`: the
`thread_count == 0` panic becomes `Except.error` (raised before any
worker iterator is built, so the error carries no workers); otherwise
one sequential iterator per chunk range over `[0, 2^n)` is created. -/
def ParallelPermutationIter.new (formula vars : List Char)
    (pos_map : List (Char × List Nat)) (thread_count : Nat) :
    Except String ParallelPermutationIter :=
  if thread_count = 0 then
    Except.error "thread_count must be greater than 0"
  else
    Except.ok
      { vars := vars
        thread_count := thread_count
        workers := (chunkRanges (2 ^ vars.length) thread_count).map
          (fun se => SequentialPermutationIter.new formula vars pos_map se.1 se.2) }

/-- The multiset of rows the parallel engine delivers through its channel:
every worker sends exactly the rows of its chunk, and the channel
interleaves them in a scheduler-dependent order, so the delivered
multiset is the union of the per-worker row lists. -/
def parallelRowMultiset (p : ParallelPermutationIter) : Multiset String :=
  ↑(p.workers.flatMap (fun it => it.run.1))

/-- The receive error of the crossbeam channel once every sender has been
dropped. -/
inductive RecvError where
  | disconnected
deriving DecidableEq, Repr

/-- The shared channel as the consumer observes it: `pending` is the
sequence of rows still to be received (buffered now or yet to be sent by
a live worker, in arrival order).  An empty `pending` with no live
senders is the disconnected state. -/
structure RowChannel where
  pending : List String
deriving DecidableEq, Repr

/-- Embeds `Receiver::recv`: a pending row is delivered; with nothing
pending and all senders dropped the receive fails with a disconnection
error instead of blocking forever. -/
def RowChannel.recv (ch : RowChannel) : Except RecvError (String × RowChannel) :=
  match ch.pending with
  | [] => Except.error RecvError.disconnected
  | r :: rest => Except.ok (r, ⟨rest⟩)

/-- Embeds `Iterator::next` for `ParallelPermutationIter`, which is
`self.receiver.recv().ok()`: the receive error is converted to `none`
(end of sequence), never a panic. -/
def nextRow (ch : RowChannel) : Option (String × RowChannel) :=
  (ch.recv).toOption

/-- Modelled from the spec: `is_identifier`, whose definition is not under
`src/` — identifiers are single uppercase letters `A`-`Z`. -/
def isIdentifierChar (c : Char) : Bool :=
  decide ('A' ≤ c ∧ c ≤ 'Z')

/-- First-occurrence deduplication, embedding the
`chars().filter(|c| set.insert(c))` pattern of `Input::try_from` in
`main.rs`: `seen` is the hash set of characters inserted so far. -/
def dedupAux : List Char → List Char → List Char
  | _, [] => []
  | seen, c :: rest =>
    if c ∈ seen then dedupAux seen rest
    else c :: dedupAux (c :: seen) rest

/-- First-occurrence deduplication starting from an empty seen-set. -/
def dedupFirst (s : List Char) : List Char :=
  dedupAux [] s

/-- The `Input` struct of `main.rs`, with strings as character lists. -/
structure Input where
  rules : List (List Char)
  facts : List Char
  queries : List Char
deriving DecidableEq, Repr

/-- Embeds the classification loop of `Input::try_from` in `main.rs`: a
line starting with `=` (respectively `?`) has that marker removed and
becomes the facts (queries) line — a second such line is an error; any
other non-empty line is a rule; empty lines are skipped. -/
def classifyLines :
    List (List Char) → List (List Char) → Option (List Char) → Option (List Char) →
    Except String (List (List Char) × Option (List Char) × Option (List Char))
  | [], rules, facts, queries => Except.ok (rules, facts, queries)
  | l :: rest, rules, facts, queries =>
    match l with
    | [] => classifyLines rest rules facts queries
    | c :: tl =>
      if c = '=' then
        match facts with
        | none => classifyLines rest rules (some tl) queries
        | some _ => Except.error "Multiple facts found in input file"
      else if c = '?' then
        match queries with
        | none => classifyLines rest rules facts (some tl)
        | some _ => Except.error "Multiple queries found in input file"
      else
        classifyLines rest (rules ++ [l]) facts queries

/-- Embeds `Input::try_from<Vec<T>>` of `main.rs` on already-sanitized
lines (`sanitize_lines` is external glue whose source is not under
`src/`): classify the lines, require facts and queries to be present and
made of identifier characters, then deduplicate both keeping first
occurrences. -/
def Input.tryFrom (lines : List (List Char)) : Except String Input := do
  let (rules, factsOpt, queriesOpt) ← classifyLines lines [] none none
  match factsOpt with
  | none => Except.error "No facts in input file"
  | some facts =>
    match facts.find? (fun c => !(isIdentifierChar c)) with
    | some _ => Except.error "Invalid identifier in facts"
    | none =>
      match queriesOpt with
      | none => Except.error "No queries in input file"
      | some queries =>
        match queries.find? (fun c => !(isIdentifierChar c)) with
        | some _ => Except.error "Invalid identifier in query"
        | none =>
          Except.ok
            { rules := rules
              facts := dedupFirst facts
              queries := dedupFirst queries }

/-- Modelled from the spec: the usage text printed on wrong arity (the
`USAGE` constant itself is not under `src/`; its contents are immaterial
to the claims). -/
def USAGE : String :=
  "usage: expert-system input_file"

/-- Embeds `handle_cli` of `main.rs`: with exactly two OS arguments (the
program name plus one positional argument) the positional argument is
returned as the input file path; any other arity prints the usage text to
stderr and exits with code 1, embedded as `Except.error (USAGE, 1)`. -/
def handleCli (args : List String) : Except (String × Nat) String :=
  match args with
  | [_, path] => Except.ok path
  | _ => Except.error (USAGE, 1)

/-- The index of the first occurrence of a character in a string (the
position at which the Rust `HashSet::insert` first accepts it). -/
def firstOcc : List Char → Char → Nat
  | [], _ => 0
  | a :: rest, c => if a = c then 0 else firstOcc rest c + 1

theorem runFuel_spec (fuel : Nat) :
    ∀ it : SequentialPermutationIter, it.stop - it.cursor ≤ fuel →
      SequentialPermutationIter.runFuel fuel it =
        ((List.range' it.cursor (it.stop - it.cursor)).map (rowOf it.formula it.vars),
          { it with cursor := max it.cursor it.stop }) := by
  induction fuel with
  | zero =>
    intro it h
    have hc : it.stop ≤ it.cursor := by omega
    have hmax : max it.cursor it.stop = it.cursor := Nat.max_eq_left hc
    simp [SequentialPermutationIter.runFuel, Nat.sub_eq_zero_of_le hc, hmax]
  | succ n ih =>
    intro it h
    by_cases hlt : it.cursor < it.stop
    · have hnext : it.next =
          some (rowOf it.formula it.vars it.cursor, { it with cursor := it.cursor + 1 }) := by
        simp [SequentialPermutationIter.next, hlt]
      have hfuel : it.stop - (it.cursor + 1) ≤ n := by omega
      have ih2 := ih { it with cursor := it.cursor + 1 } hfuel
      have hrange : List.range' it.cursor (it.stop - it.cursor)
          = it.cursor :: List.range' (it.cursor + 1) (it.stop - (it.cursor + 1)) := by
        have : it.stop - it.cursor = (it.stop - (it.cursor + 1)) + 1 := by omega
        rw [this, List.range'_succ]
      have hmax1 : max (it.cursor + 1) it.stop = it.stop := Nat.max_eq_right (by omega)
      have hmax2 : max it.cursor it.stop = it.stop := Nat.max_eq_right (by omega)
      rw [SequentialPermutationIter.runFuel, hnext]
      simp only [ih2, hrange, List.map_cons, hmax1, hmax2]
    · have hc : it.stop ≤ it.cursor := by omega
      have hnext : it.next = none := by
        simp [SequentialPermutationIter.next, hlt]
      have hmax : max it.cursor it.stop = it.cursor := Nat.max_eq_left hc
      rw [SequentialPermutationIter.runFuel, hnext]
      simp [Nat.sub_eq_zero_of_le hc, hmax]

theorem run_spec (it : SequentialPermutationIter) :
    it.run = ((List.range' it.cursor (it.stop - it.cursor)).map (rowOf it.formula it.vars),
      { it with cursor := max it.cursor it.stop }) :=
  runFuel_spec (it.stop - it.cursor) it (Nat.le_refl _)

theorem seqRows_eq (formula vars : List Char) (pos_map : List (Char × List Nat))
    (start stop : Nat) :
    seqRows formula vars pos_map start stop
      = (List.range' start (stop - start)).map (rowOf formula vars) := by
  rw [seqRows, run_spec]
  simp [SequentialPermutationIter.new]

/-- C4: for every formula, the sequential engine over the full range
`[0, 2^n)` yields exactly `2^n` rows, one per assignment integer, the
assignments covered are exactly `0, …, 2^n - 1` with no duplicates, and
after exhausting the range the iterator signals end-of-sequence and
never wraps around. -/
theorem sequential_full_range_rows (formula vars : List Char)
    (pos_map : List (Char × List Nat)) :
    (seqRows formula vars pos_map 0 (2 ^ vars.length)).length = 2 ^ vars.length
    ∧ seqRows formula vars pos_map 0 (2 ^ vars.length)
        = (List.range (2 ^ vars.length)).map (rowOf formula vars)
    ∧ (List.range (2 ^ vars.length)).Nodup
    ∧ ((SequentialPermutationIter.new formula vars pos_map 0 (2 ^ vars.length)).run).2.next
        = none := by
  have hrows := seqRows_eq formula vars pos_map 0 (2 ^ vars.length)
  have hrange : List.range' 0 (2 ^ vars.length - 0) = List.range (2 ^ vars.length) := by
    rw [Nat.sub_zero, List.range_eq_range']
  refine ⟨?_, ?_, List.nodup_range _, ?_⟩
  · rw [hrows, List.length_map, List.length_range', Nat.sub_zero]
  · rw [hrows, hrange]
  · rw [run_spec]
    simp [SequentialPermutationIter.next, SequentialPermutationIter.new]

theorem flatMap_range_chunks (step : Nat) :
    ∀ k : Nat, (List.range k).flatMap (fun i => List.range' (step * i) step)
      = List.range' 0 (step * k) := by
  intro k
  induction k with
  | zero => simp
  | succ m ih =>
    rw [List.range_succ, List.flatMap_append, ih]
    simp only [List.flatMap_cons, List.flatMap_nil, List.append_nil]
    have happ := List.range'_append_1 0 (step * m) step
    rw [Nat.zero_add] at happ
    rw [happ, Nat.mul_succ, Nat.add_comm]

theorem chunkRanges_eq_map (totalEnd tc : Nat) (h : 2 ≤ tc) :
    chunkRanges totalEnd tc
      = (List.range tc).map
          (fun i => ((totalEnd / tc) * i,
            if i = tc - 1 then totalEnd else (totalEnd / tc) * i + (totalEnd / tc))) := by
  rcases tc with _ | _ | k
  · omega
  · omega
  · rfl

theorem chunkRanges_flatMap (totalEnd tc : Nat) (h : 1 ≤ tc) :
    (chunkRanges totalEnd tc).flatMap (fun se => List.range' se.1 (se.2 - se.1))
      = List.range totalEnd := by
  rcases tc with _ | _ | k
  · omega
  · simp [chunkRanges, List.range_eq_range']
  · rw [chunkRanges]
    rw [List.flatMap_map, List.range_succ, List.flatMap_append]
    simp only [List.flatMap_cons, List.flatMap_nil, List.append_nil, eq_self_iff_true,
      if_true]
    have hmid : (List.range (k + 1)).flatMap
          (fun i => List.range'
            ((totalEnd / (k + 2)) * i,
              if i = k + 1 then totalEnd
              else (totalEnd / (k + 2)) * i + (totalEnd / (k + 2))).1
            (((totalEnd / (k + 2)) * i,
              if i = k + 1 then totalEnd
              else (totalEnd / (k + 2)) * i + (totalEnd / (k + 2))).2 -
              ((totalEnd / (k + 2)) * i,
                if i = k + 1 then totalEnd
                else (totalEnd / (k + 2)) * i + (totalEnd / (k + 2))).1))
        = (List.range (k + 1)).flatMap
          (fun i => List.range' ((totalEnd / (k + 2)) * i) (totalEnd / (k + 2))) := by
      rw [List.flatMap_def, List.flatMap_def]
      congr 1
      apply List.map_congr_left
      intro i hi
      have hik : ¬ i = k + 1 := by
        have := List.mem_range.mp hi
        omega
      simp [hik]
    rw [hmid, flatMap_range_chunks]
    have hle : (totalEnd / (k + 2)) * (k + 1) ≤ totalEnd := by
      have h1 : (totalEnd / (k + 2)) * (k + 1) ≤ (totalEnd / (k + 2)) * (k + 2) :=
        Nat.mul_le_mul_left _ (by omega)
      have h2 : (totalEnd / (k + 2)) * (k + 2) ≤ totalEnd := Nat.div_mul_le_self _ _
      omega
    have happ := List.range'_append_1 0 ((totalEnd / (k + 2)) * (k + 1))
      (totalEnd - (totalEnd / (k + 2)) * (k + 1))
    rw [Nat.zero_add] at happ
    rw [happ, Nat.sub_add_cancel hle, List.range_eq_range']

/-- C2: for `thread_count ≥ 2`, the chunk ranges of
`ParallelPermutationIter::new` are exactly `[step * i, step * (i + 1))`
with `step = 2^n / thread_count`, except the last chunk whose end is
`2^n`; flattening the ranges gives exactly `0, …, 2^n - 1`, so the chunks
are contiguous, pairwise disjoint, and exhaustive. -/
theorem chunk_ranges_partition (n tc : Nat) (h : 2 ≤ tc) :
    chunkRanges (2 ^ n) tc
      = (List.range tc).map
          (fun i => ((2 ^ n / tc) * i,
            if i = tc - 1 then 2 ^ n else (2 ^ n / tc) * (i + 1)))
    ∧ (chunkRanges (2 ^ n) tc).flatMap (fun se => List.range' se.1 (se.2 - se.1))
      = List.range (2 ^ n) := by
  constructor
  · rw [chunkRanges_eq_map _ _ h]
    apply List.map_congr_left
    intro i _
    by_cases hi : i = tc - 1 <;> simp [hi, Nat.mul_succ]
  · exact chunkRanges_flatMap _ _ (by omega)

/-- C2 witness: four assignments split over three threads give chunks
`[0,1)`, `[1,2)`, `[2,4)`, covering `0, 1, 2, 3` exactly. -/
theorem chunk_ranges_partition_witness :
    chunkRanges (2 ^ 2) 3
      = (List.range 3).map
          (fun i => ((2 ^ 2 / 3) * i,
            if i = 3 - 1 then 2 ^ 2 else (2 ^ 2 / 3) * (i + 1)))
    ∧ (chunkRanges (2 ^ 2) 3).flatMap (fun se => List.range' se.1 (se.2 - se.1))
      = List.range (2 ^ 2) :=
  chunk_ranges_partition 2 3 (by decide)

/-- C9: when `thread_count` exceeds `2^n`, integer division makes
`step = 0`, every chunk but the last is the empty range `[0, 0)`, the
last chunk is `[0, 2^n)`, and total coverage is still exact. -/
theorem chunk_ranges_more_threads (n tc : Nat) (h : 2 ^ n < tc) :
    2 ^ n / tc = 0
    ∧ chunkRanges (2 ^ n) tc
        = (List.range tc).map (fun i => (0, if i = tc - 1 then 2 ^ n else 0))
    ∧ (chunkRanges (2 ^ n) tc).flatMap (fun se => List.range' se.1 (se.2 - se.1))
      = List.range (2 ^ n) := by
  have hpos : 1 ≤ 2 ^ n := Nat.one_le_two_pow
  have h2 : 2 ≤ tc := by omega
  have hstep : 2 ^ n / tc = 0 := Nat.div_eq_of_lt h
  refine ⟨hstep, ?_, chunkRanges_flatMap _ _ (by omega)⟩
  rw [chunkRanges_eq_map _ _ h2, hstep]
  apply List.map_congr_left
  intro i _
  simp

/-- C9 witness: two assignments over three threads give chunks `[0,0)`,
`[0,0)`, `[0,2)`. -/
theorem chunk_ranges_more_threads_witness :
    2 ^ 1 / 3 = 0
    ∧ chunkRanges (2 ^ 1) 3
        = (List.range 3).map (fun i => (0, if i = 3 - 1 then 2 ^ 1 else 0))
    ∧ (chunkRanges (2 ^ 1) 3).flatMap (fun se => List.range' se.1 (se.2 - se.1))
      = List.range (2 ^ 1) :=
  chunk_ranges_more_threads 1 3 (by decide)

/-- C1: for every formula and every `thread_count ≥ 1`, the multiset of
rows the parallel engine delivers (the union of the rows its workers send
into the channel) equals the multiset of rows of the sequential engine
over the full range `[0, 2^n)`; only the order may differ. -/
theorem parallel_rows_multiset_eq_sequential (formula vars : List Char)
    (pos_map : List (Char × List Nat)) (tc : Nat) (h : 1 ≤ tc) :
    (ParallelPermutationIter.new formula vars pos_map tc).map parallelRowMultiset
      = Except.ok ↑(seqRows formula vars pos_map 0 (2 ^ vars.length)) := by
  have htc : ¬ tc = 0 := by omega
  have hflat : ((chunkRanges (2 ^ vars.length) tc).map
        (fun se => SequentialPermutationIter.new formula vars pos_map se.1 se.2)).flatMap
        (fun it => it.run.1)
      = seqRows formula vars pos_map 0 (2 ^ vars.length) := by
    rw [List.flatMap_map]
    have hstep1 : (chunkRanges (2 ^ vars.length) tc).flatMap
          (fun se => ((SequentialPermutationIter.new formula vars pos_map se.1 se.2).run).1)
        = (chunkRanges (2 ^ vars.length) tc).flatMap
          (fun se => (List.range' se.1 (se.2 - se.1)).map (rowOf formula vars)) := by
      rw [List.flatMap_def, List.flatMap_def]
      congr 1
      apply List.map_congr_left
      intro se _
      exact seqRows_eq formula vars pos_map se.1 se.2
    rw [hstep1, ← List.map_flatMap, chunkRanges_flatMap _ _ h,
      seqRows_eq formula vars pos_map 0 (2 ^ vars.length), Nat.sub_zero,
      List.range_eq_range']
  simp only [ParallelPermutationIter.new, if_neg htc, Except.map, parallelRowMultiset]
  exact congrArg (fun l : List String => (Except.ok ↑l : Except String (Multiset String))) hflat

/-- C1 witness: the formula `A + B` with three worker threads delivers
the same row multiset as the sequential engine over `[0, 4)`. -/
theorem parallel_rows_multiset_eq_sequential_witness :
    (ParallelPermutationIter.new (String.toList "A + B") ['A', 'B'] [] 3).map
        parallelRowMultiset
      = Except.ok ↑(seqRows (String.toList "A + B") ['A', 'B'] [] 0 (2 ^ (['A', 'B'] : List Char).length)) :=
  parallel_rows_multiset_eq_sequential (String.toList "A + B") ['A', 'B'] [] 3 (by decide)

/-- C6: a thread count of one degenerates to a single sequential worker
over the whole range `[0, 2^n)`. -/
theorem parallel_new_single_thread (formula vars : List Char)
    (pos_map : List (Char × List Nat)) :
    ParallelPermutationIter.new formula vars pos_map 1
      = Except.ok
          { vars := vars
            thread_count := 1
            workers := [SequentialPermutationIter.new formula vars pos_map 0 (2 ^ vars.length)] } :=
  rfl

/-- C3: constructing the parallel engine with `thread_count == 0` fails
fatally at construction (the panic, embedded as `Except.error`, is
raised before any worker is built, so the failure carries no workers),
while every `thread_count ≥ 1` passes this check. -/
theorem parallel_new_thread_count_check (formula vars : List Char)
    (pos_map : List (Char × List Nat)) (tc : Nat) :
    ParallelPermutationIter.new formula vars pos_map 0
      = Except.error "thread_count must be greater than 0"
    ∧ ((ParallelPermutationIter.new formula vars pos_map tc).isOk = true ↔ 1 ≤ tc) := by
  refine ⟨rfl, ?_⟩
  by_cases htc : tc = 0
  · subst htc
    simp [ParallelPermutationIter.new, Except.isOk, Except.toBool]
  · simp only [ParallelPermutationIter.new, if_neg htc, Except.isOk, Except.toBool]
    constructor
    · intro _; omega
    · intro _; trivial

/-- C7: the parser honors precedence and associativity — `A + B | C`
parses as `(A AND B) OR C`, and `A => B => C` parses right-associatively
as `A => (B => C)`. -/
theorem parse_precedence_examples :
    parse (String.toList "A + B | C")
        = Except.ok (Node.or (Node.and (Node.ident 'A') (Node.ident 'B')) (Node.ident 'C'))
    ∧ parse (String.toList "A => B => C")
        = Except.ok (Node.imp (Node.ident 'A') (Node.imp (Node.ident 'B') (Node.ident 'C'))) :=
  ⟨rfl, rfl⟩

/-- C5: the consumer's `next` delivers a row whenever one is pending
(buffered or still to be sent by a live worker), and once every sender
has dropped and the channel is drained the receive error is converted to
`none` — an end-of-sequence signal, never a panic. -/
theorem parallel_next_end_of_stream (ch : RowChannel) :
    nextRow ch = ch.pending.head?.map (fun r => (r, RowChannel.mk ch.pending.tail))
    ∧ (ch.pending = [] →
        ch.recv = Except.error RecvError.disconnected ∧ nextRow ch = none) := by
  obtain ⟨pending⟩ := ch
  cases pending with
  | nil => exact ⟨rfl, fun _ => ⟨rfl, rfl⟩⟩
  | cons r rest =>
    refine ⟨rfl, ?_⟩
    intro hnil
    cases hnil

/-- C5 witness: on the drained, disconnected channel the receive fails
with the disconnection error and `next` returns `none`. -/
theorem parallel_next_end_of_stream_witness :
    RowChannel.recv ⟨[]⟩ = Except.error RecvError.disconnected
    ∧ nextRow ⟨[]⟩ = none :=
  (parallel_next_end_of_stream ⟨[]⟩).2 rfl

/-- C8: with exactly one positional argument (two OS arguments) the
argument is the input file path; any other arity yields the usage
message and exit code 1. -/
theorem handle_cli_arity (args : List String) :
    (∀ prog path, args = [prog, path] → handleCli args = Except.ok path)
    ∧ (args.length ≠ 2 → handleCli args = Except.error (USAGE, 1)) := by
  constructor
  · intro prog path hargs
    subst hargs
    rfl
  · intro hlen
    match args, hlen with
    | [], _ => rfl
    | [_], _ => rfl
    | _ :: _ :: _ :: _, _ => rfl
    | [_, _], hlen => exact absurd rfl hlen

/-- C8 witness: one positional argument is accepted as the path; zero
positional arguments yield the usage error with exit code 1. -/
theorem handle_cli_arity_witness :
    handleCli ["expert-system", "input.txt"] = Except.ok "input.txt"
    ∧ handleCli ["expert-system"] = Except.error (USAGE, 1) :=
  ⟨(handle_cli_arity ["expert-system", "input.txt"]).1 "expert-system" "input.txt" rfl,
    (handle_cli_arity ["expert-system"]).2 (by decide)⟩

theorem mem_dedupAux (c : Char) :
    ∀ (l seen : List Char), c ∈ dedupAux seen l ↔ c ∈ l ∧ c ∉ seen := by
  intro l
  induction l with
  | nil => intro seen; simp [dedupAux]
  | cons a rest ih =>
    intro seen
    by_cases ha : a ∈ seen
    · rw [dedupAux, if_pos ha, ih seen]
      simp only [List.mem_cons]
      constructor
      · rintro ⟨h1, h2⟩
        exact ⟨Or.inr h1, h2⟩
      · rintro ⟨h1 | h1, h2⟩
        · subst h1; exact absurd ha h2
        · exact ⟨h1, h2⟩
    · rw [dedupAux, if_neg ha, List.mem_cons, ih (a :: seen)]
      simp only [List.mem_cons, not_or]
      constructor
      · rintro (rfl | ⟨h1, h2, h3⟩)
        · exact ⟨Or.inl rfl, ha⟩
        · exact ⟨Or.inr h1, h3⟩
      · rintro ⟨h1 | h1, h2⟩
        · exact Or.inl h1
        · by_cases hca : c = a
          · exact Or.inl hca
          · exact Or.inr ⟨h1, hca, h2⟩

theorem nodup_dedupAux : ∀ (l seen : List Char), (dedupAux seen l).Nodup := by
  intro l
  induction l with
  | nil => intro seen; simp [dedupAux]
  | cons a rest ih =>
    intro seen
    by_cases ha : a ∈ seen
    · rw [dedupAux, if_pos ha]; exact ih seen
    · rw [dedupAux, if_neg ha]
      refine List.nodup_cons.mpr ⟨?_, ih (a :: seen)⟩
      intro hmem
      exact ((mem_dedupAux a rest (a :: seen)).mp hmem).2 (List.mem_cons_self a seen)

theorem pairwise_dedupAux :
    ∀ (l seen : List Char),
      (dedupAux seen l).Pairwise (fun x y => firstOcc l x < firstOcc l y) := by
  intro l
  induction l with
  | nil => intro seen; simp [dedupAux]
  | cons a rest ih =>
    intro seen
    by_cases ha : a ∈ seen
    · rw [dedupAux, if_pos ha]
      refine List.Pairwise.imp_of_mem (fun hx hy hxy => ?_) (ih seen)
      rename_i x y
      have hxs := ((mem_dedupAux x rest seen).mp hx).2
      have hys := ((mem_dedupAux y rest seen).mp hy).2
      have hxa : ¬ a = x := fun he => hxs (he ▸ ha)
      have hya : ¬ a = y := fun he => hys (he ▸ ha)
      simp only [firstOcc, if_neg hxa, if_neg hya]
      omega
    · rw [dedupAux, if_neg ha, List.pairwise_cons]
      constructor
      · intro y hy
        have hyn := ((mem_dedupAux y rest (a :: seen)).mp hy).2
        have hya : ¬ a = y := fun he => hyn (he ▸ List.mem_cons_self a seen)
        simp only [firstOcc, eq_self_iff_true, if_true, if_neg hya]
        omega
      · refine List.Pairwise.imp_of_mem (fun hx hy hxy => ?_) (ih (a :: seen))
        rename_i x y
        have hxs := ((mem_dedupAux x rest (a :: seen)).mp hx).2
        have hys := ((mem_dedupAux y rest (a :: seen)).mp hy).2
        have hxa : ¬ a = x := fun he => hxs (he ▸ List.mem_cons_self a seen)
        have hya : ¬ a = y := fun he => hys (he ▸ List.mem_cons_self a seen)
        simp only [firstOcc, if_neg hxa, if_neg hya]
        omega

theorem nodup_dedupFirst (s : List Char) : (dedupFirst s).Nodup :=
  nodup_dedupAux s []

theorem pairwise_dedupFirst (s : List Char) :
    (dedupFirst s).Pairwise (fun x y => firstOcc s x < firstOcc s y) :=
  pairwise_dedupAux s []

theorem mem_dedupFirst (s : List Char) (c : Char) : c ∈ dedupFirst s ↔ c ∈ s := by
  rw [dedupFirst, mem_dedupAux]
  simp

/-- C10: every successfully constructed `Input` has duplicate-free facts
and queries strings, each obtained from the corresponding input line by
first-occurrence-order deduplication: the surviving characters appear in
strictly increasing order of their first occurrence in the raw line, and
exactly the characters of the raw line survive. -/
theorem input_dedup_first_occurrence (lines : List (List Char)) (inp : Input)
    (h : Input.tryFrom lines = Except.ok inp) :
    inp.facts.Nodup ∧ inp.queries.Nodup
    ∧ ∃ rawF rawQ,
        classifyLines lines [] none none = Except.ok (inp.rules, some rawF, some rawQ)
        ∧ inp.facts = dedupFirst rawF
        ∧ inp.queries = dedupFirst rawQ
        ∧ inp.facts.Pairwise (fun x y => firstOcc rawF x < firstOcc rawF y)
        ∧ inp.queries.Pairwise (fun x y => firstOcc rawQ x < firstOcc rawQ y)
        ∧ (∀ c, c ∈ inp.facts ↔ c ∈ rawF)
        ∧ (∀ c, c ∈ inp.queries ↔ c ∈ rawQ) := by
  rw [Input.tryFrom] at h
  cases hcl : classifyLines lines [] none none with
  | error e =>
    rw [hcl] at h
    simp only [Bind.bind, Except.bind] at h
    exact Except.noConfusion h
  | ok triple =>
    obtain ⟨rules, factsOpt, queriesOpt⟩ := triple
    rw [hcl] at h
    simp only [Bind.bind, Except.bind] at h
    cases factsOpt with
    | none => exact Except.noConfusion h
    | some facts =>
      dsimp only at h
      cases hf : facts.find? (fun c => !(isIdentifierChar c)) with
      | some c => rw [hf] at h; exact Except.noConfusion h
      | none =>
        rw [hf] at h
        cases queriesOpt with
        | none => exact Except.noConfusion h
        | some queries =>
          dsimp only at h
          cases hq : queries.find? (fun c => !(isIdentifierChar c)) with
          | some c => rw [hq] at h; exact Except.noConfusion h
          | none =>
            rw [hq] at h
            injection h with h2
            subst h2
            exact ⟨nodup_dedupFirst facts, nodup_dedupFirst queries, facts, queries,
              rfl, rfl, rfl, pairwise_dedupFirst facts, pairwise_dedupFirst queries,
              fun c => mem_dedupFirst facts c, fun c => mem_dedupFirst queries c⟩

/-- C10 witness: the lines `=ABA` and `?ZZ` produce facts `AB` and
queries `Z`, duplicate-free and in first-occurrence order. -/
theorem input_dedup_first_occurrence_witness :
    (Input.mk [] ['A', 'B'] ['Z']).facts.Nodup
    ∧ (Input.mk [] ['A', 'B'] ['Z']).queries.Nodup
    ∧ ∃ rawF rawQ,
        classifyLines [['=', 'A', 'B', 'A'], ['?', 'Z', 'Z']] [] none none
          = Except.ok ((Input.mk [] ['A', 'B'] ['Z']).rules, some rawF, some rawQ)
        ∧ (Input.mk [] ['A', 'B'] ['Z']).facts = dedupFirst rawF
        ∧ (Input.mk [] ['A', 'B'] ['Z']).queries = dedupFirst rawQ
        ∧ (Input.mk [] ['A', 'B'] ['Z']).facts.Pairwise
            (fun x y => firstOcc rawF x < firstOcc rawF y)
        ∧ (Input.mk [] ['A', 'B'] ['Z']).queries.Pairwise
            (fun x y => firstOcc rawQ x < firstOcc rawQ y)
        ∧ (∀ c, c ∈ (Input.mk [] ['A', 'B'] ['Z']).facts ↔ c ∈ rawF)
        ∧ (∀ c, c ∈ (Input.mk [] ['A', 'B'] ['Z']).queries ↔ c ∈ rawQ) :=
  input_dedup_first_occurrence [['=', 'A', 'B', 'A'], ['?', 'Z', 'Z']]
    (Input.mk [] ['A', 'B'] ['Z']) rfl

end ExpertSystem
